import Mathlib

/-!
Verification of the magic_collector card-collection manager.

Shallow embedding of the core logic of `app.py` (and the duplicated
normalization in `load_bulk_cards.py`): the card normalizer
(`store_cards`), the face-summary encoding and its decoder
(`view_card_detail`), the collection ledger (`add_to_collection`,
`update_collection_quantity`, `get_collection_quantity`), the trade
ledger (`add_trade`, `delete_trade`), the deck-list parser and
validator (`parse_decklist_text`, `validate_cards_in_database`,
`update_deck`), and the collector-number ordering used by
`view_cards_by_set` (SQLite `CAST(collector_number AS INTEGER)`).

Strings are modelled as lists of characters (`Str`), database text
columns directly as such lists, SQL rows as structures, and the
mutable SQLite state as explicit state values threaded through the
operations.
-/

namespace MagicCollector

/-- Model of a Python / SQLite text value. -/
abbrev Str := List Char

/-- Character data of a Lean string literal, used to write `Str` constants. -/
def strL (s : String) : Str := s.data

/-! ## String primitives (models of Python `str` operations) -/

/-- Is `p` a prefix of `l`?  Executable model of Python `str.startswith`. -/
def isPrefB : Str → Str → Bool
  | [], _ => true
  | _ :: _, [] => false
  | a :: as, b :: bs => if a = b then isPrefB as bs else false

/-- Does `sep` occur as a contiguous substring of the second argument?
Model of the Python `sep in s` test. -/
def containsB (sep : Str) : Str → Bool
  | [] => isPrefB sep []
  | c :: cs => isPrefB sep (c :: cs) || containsB sep cs

/-- Does `s` end with `p`?  Model of Python `str.endswith`. -/
def endsWithB (p s : Str) : Bool := isPrefB p.reverse s.reverse

/-- Split at the first occurrence of `sep`: returns the part before and the
part after it, or `none` when `sep` does not occur.  Model of Python
`s.split(sep, 1)` (which yields two parts exactly when `sep` occurs). -/
def splitFirst (sep : Str) : Str → Option (Str × Str)
  | [] => none
  | c :: cs =>
      if isPrefB sep (c :: cs) then some ([], (c :: cs).drop sep.length)
      else
        match splitFirst sep cs with
        | none => none
        | some (a, b) => some (c :: a, b)

/-- Fuel-bounded full split; with fuel at least the string length and a
non-empty separator it computes Python `s.split(sep)` (see `splitOnL`). -/
def splitOnAux (sep : Str) : Nat → Str → List Str
  | 0, l => [l]
  | fuel + 1, l =>
      match splitFirst sep l with
      | none => [l]
      | some (a, b) => a :: splitOnAux sep fuel b

/-- Python `s.split(sep)`; for an empty separator the source never calls it,
so that case is mapped to the identity split. -/
def splitOnL (sep : Str) (l : Str) : List Str :=
  match sep with
  | [] => [l]
  | _ :: _ => splitOnAux sep l.length l

/-- Python `sep.join(parts)`. -/
def joinSep (sep : Str) : List Str → Str
  | [] => []
  | [x] => x
  | x :: y :: xs => x ++ sep ++ joinSep sep (y :: xs)

/-- No occurrence of `sep` begins strictly inside `x` when the text
continues with `b` — the property making `x` a clean first chunk for
splitting.  (An occurrence may use characters of `b` after `x`'s end.) -/
def NoEarlyB (sep x b : Str) : Prop :=
  ∀ i, i < x.length → isPrefB sep (x.drop i ++ b) = false

/-- Safe to use as a `joinSep sep` segment: `sep` occurs in the segment
neither outright nor by a segment suffix merging into a following
separator. -/
def SelfJoinSafe (sep x : Str) : Prop :=
  containsB sep x = false ∧
  ∀ k, 1 ≤ k → k < sep.length → isPrefB (sep.drop k) sep = true →
    endsWithB (sep.take k) x = false

/-- Whitespace as stripped by Python `str.strip` (ASCII portion). -/
def pyIsSpace (c : Char) : Bool :=
  c = ' ' || c = '\t' || c = '\n' || c = '\r' || c = '\x0b' || c = '\x0c'

/-- Python `str.strip()`. -/
def pyStrip (s : Str) : Str :=
  ((s.dropWhile pyIsSpace).reverse.dropWhile pyIsSpace).reverse

/-- Python `str.isdigit()` (ASCII digits, which is all the source feeds it). -/
def pyIsDigit (s : Str) : Bool := !s.isEmpty && s.all Char.isDigit

/-- Numeric value of a digit string, as computed by Python `int(...)` on a
string of digits. -/
def natDigitsVal (s : Str) : Nat := s.foldl (fun a c => a * 10 + (c.toNat - 48)) 0

/-! ## Collection ledger for one (card, foil) pair

`user_collection` has the constraint `UNIQUE(card_id, is_foil)`, so the
state visible to the trade ledger for one (card, foil) pair is either no
row (`none`) or one row holding a quantity.  These functions model
`get_collection_quantity`, `add_to_collection` and
`update_collection_quantity` from `app.py` restricted to that pair. -/

/-- `get_collection_quantity`: the stored quantity, `0` when no row exists. -/
def getQty (s : Option Int) : Int := s.getD 0

/-- `add_to_collection`: add `q` to an existing row, or insert a fresh row
with quantity `q` when none exists. -/
def addToCollection (s : Option Int) (q : Int) : Option Int :=
  match s with
  | some v => some (v + q)
  | none => some q

/-- `update_collection_quantity`: set the exact quantity; a quantity `≤ 0`
deletes the row instead of storing it. -/
def updateCollectionQuantity (s : Option Int) (q : Int) : Option Int :=
  if q ≤ 0 then none else some q

/-! ## Trade ledger for one (card, foil) pair -/

/-- Trade direction, the `direction` column of `trade_data`. -/
inductive Direction where
  | buy
  | sell
deriving DecidableEq, Repr

/-- Result reported by a trade-ledger route (`success` flag plus which
error message was produced). -/
inductive TradeResult where
  | ok
  | insufficientHoldings
  | notFound
deriving DecidableEq, Repr

/-- The state touched by `add_trade` / `delete_trade` for one card and one
finish: the `user_collection` cell, the `trade_data` rows
(id, direction, quantity), and the next `AUTOINCREMENT` id. -/
structure LedgerState where
  cell : Option Int
  trades : List (Nat × Direction × Int)
  nextId : Nat
deriving DecidableEq, Repr

/-- The empty database. -/
def initLedger : LedgerState := ⟨none, [], 0⟩

/-- `add_trade` (`app.py`) after the card id has been resolved, restricted
to one (card, foil) pair.  A Buy adjusts the collection and appends a
record; a Sell first checks the held quantity and is rejected with the
insufficient-holdings message, appending nothing and leaving the
collection untouched, when fewer cards are held than requested. -/
def addTrade (s : LedgerState) (d : Direction) (q : Int) : TradeResult × LedgerState :=
  match d with
  | .buy =>
      (.ok, { cell := addToCollection s.cell q,
              trades := s.trades ++ [(s.nextId, .buy, q)],
              nextId := s.nextId + 1 })
  | .sell =>
      let cur := getQty s.cell
      if cur < q then (.insufficientHoldings, s)
      else
        (.ok, { cell := updateCollectionQuantity s.cell (cur - q),
                trades := s.trades ++ [(s.nextId, .sell, q)],
                nextId := s.nextId + 1 })

/-- `delete_trade` (`app.py`) after card resolution.  The request carries the
trade's id, direction and quantity.  The compensating collection update runs
first (it commits on its own connection in the source), and only then is the
`trade_data` row deleted; a zero row count reports not-found.  Undoing a Buy
with fewer cards held than the Buy's quantity is rejected up front. -/
def deleteTrade (s : LedgerState) (tid : Nat) (d : Direction) (q : Int) :
    TradeResult × LedgerState :=
  match d with
  | .buy =>
      let cur := getQty s.cell
      if cur < q then (.insufficientHoldings, s)
      else
        let cell' := updateCollectionQuantity s.cell (cur - q)
        if s.trades.any (fun t => t.1 == tid) then
          (.ok, { s with cell := cell',
                         trades := s.trades.filter (fun t => !(t.1 == tid)) })
        else (.notFound, { s with cell := cell' })
  | .sell =>
      let cell' := addToCollection s.cell q
      if s.trades.any (fun t => t.1 == tid) then
        (.ok, { s with cell := cell',
                       trades := s.trades.filter (fun t => !(t.1 == tid)) })
      else (.notFound, { s with cell := cell' })

/-- Run a sequence of Buy/Sell requests through `add_trade`. -/
def runTrades (s : LedgerState) : List (Direction × Int) → LedgerState
  | [] => s
  | (d, q) :: rest => runTrades (addTrade s d q).2 rest

/-- The sums of quantities of the accepted Buys and of the accepted Sells
of a request sequence (rejected requests contribute nothing). -/
def acceptedSums (s : LedgerState) : List (Direction × Int) → Int × Int
  | [] => (0, 0)
  | (d, q) :: rest =>
      let (r, s') := addTrade s d q
      let (b, l) := acceptedSums s' rest
      match r, d with
      | .ok, .buy => (b + q, l)
      | .ok, .sell => (b, l + q)
      | _, _ => (b, l)

/-! ## The full `user_collection` table (all cards and finishes)

Used for the uniqueness / no-zero-row invariant: here the table is the
row list itself, so that the `UNIQUE(card_id, is_foil)` property and the
absence of zero-quantity rows are statements about the model, not
assumptions built into it. -/

/-- One `user_collection` row. -/
structure CollRow where
  cardId : Str
  isFoil : Bool
  qty : Int
deriving DecidableEq, Repr

/-- Does a row belong to the (card, foil) pair? -/
def rowKeyMatch (c : Str) (f : Bool) (r : CollRow) : Bool :=
  r.cardId == c && r.isFoil == f

/-- The quantity column of the first row of the pair, as fetched by the
`SELECT quantity ... WHERE card_id = ? AND is_foil = ?` in the source. -/
def lookupQty (rows : List CollRow) (c : Str) (f : Bool) : Option Int :=
  (rows.find? (rowKeyMatch c f)).map CollRow.qty

/-- `add_to_collection` on the whole table: `UPDATE` of every matching row
to first-match-plus-`q` when one exists, plain `INSERT` otherwise. -/
def addToCollectionRows (rows : List CollRow) (c : Str) (f : Bool) (q : Int) :
    List CollRow :=
  match lookupQty rows c f with
  | some v =>
      rows.map (fun r => if rowKeyMatch c f r then { r with qty := v + q } else r)
  | none => rows ++ [⟨c, f, q⟩]

/-- `update_collection_quantity` on the whole table: `DELETE` for a
quantity `≤ 0`, otherwise `INSERT OR REPLACE` (which drops any row hitting
the `UNIQUE(card_id, is_foil)` constraint and inserts the new one). -/
def updateCollectionQuantityRows (rows : List CollRow) (c : Str) (f : Bool) (q : Int) :
    List CollRow :=
  if q ≤ 0 then rows.filter (fun r => !rowKeyMatch c f r)
  else rows.filter (fun r => !rowKeyMatch c f r) ++ [⟨c, f, q⟩]

/-- The operations that mutate `user_collection`: a direct add
(`add_to_collection`, also the Buy path of `add_trade`), a direct
set-exact (`update_collection_quantity` route), and the two `add_trade`
directions; trades on an unresolvable card are rejected before any
mutation, so they need no separate constructor. -/
inductive CollOp where
  | adjust (c : Str) (f : Bool) (q : Int)
  | setExact (c : Str) (f : Bool) (q : Int)
  | buyTrade (c : Str) (f : Bool) (q : Int)
  | sellTrade (c : Str) (f : Bool) (q : Int)
deriving DecidableEq, Repr

/-- Apply one operation to the table, as the corresponding source route does. -/
def applyCollOp (rows : List CollRow) : CollOp → List CollRow
  | .adjust c f q => addToCollectionRows rows c f q
  | .setExact c f q => updateCollectionQuantityRows rows c f q
  | .buyTrade c f q => addToCollectionRows rows c f q
  | .sellTrade c f q =>
      let cur := (lookupQty rows c f).getD 0
      if cur < q then rows
      else updateCollectionQuantityRows rows c f (cur - q)

/-- Run a sequence of collection operations. -/
def runCollOps (rows : List CollRow) : List CollOp → List CollRow
  | [] => rows
  | op :: rest => runCollOps (applyCollOp rows op) rest

/-- At most one row per (card, foil) pair. -/
def UniqueKeys (rows : List CollRow) : Prop :=
  rows.Pairwise (fun a b => a.cardId ≠ b.cardId ∨ a.isFoil ≠ b.isFoil)

/-- The quantity restriction the HTTP layer enforces for direct adds but
`add_trade` does not: Buy/adjust quantities at least 1. -/
def opQtyPositive : CollOp → Prop
  | .adjust _ _ q => 1 ≤ q
  | .buyTrade _ _ q => 1 ≤ q
  | .setExact _ _ _ => True
  | .sellTrade _ _ _ => True

/-! ## Card normalizer (`store_cards` in `app.py` / `load_bulk_cards.py`) -/

/-- One entry of the raw `card_faces` sequence.  Fields the source reads
with `.get(key, '')` are `Option`s (`none` = key absent); `imageNormal`
is `image_uris.get('normal')` of the face. -/
structure RawFace where
  name : Option Str
  oracle_text : Option Str
  mana_cost : Option Str
  type_line : Option Str
  imageNormal : Option Str
deriving DecidableEq, Repr

/-- A raw card record, restricted to the fields the face normalization
consults. -/
structure RawCard where
  name : Option Str
  oracle_text : Option Str
  mana_cost : Option Str
  type_line : Option Str
  card_faces : List RawFace
deriving DecidableEq, Repr

/-- The normalized columns of a `cards` row produced by `store_cards`. -/
structure NormCard where
  name : Str
  oracle_text : Str
  mana_cost : Str
  type_line : Str
  card_faces : Str
deriving DecidableEq, Repr

/-- The face summary `"<name> (<type_line>)"` with the `" |IMG:<url>"` suffix
appended when a truthy normal-image URL is present (`store_cards`). -/
def faceSummary (f : RawFace) : Str :=
  let base := f.name.getD [] ++ strL " (" ++ f.type_line.getD [] ++ strL ")"
  match f.imageNormal with
  | some u => if u = [] then base else base ++ strL " |IMG:" ++ u
  | none => base

/-- The `card_faces` column: every face's summary joined with `" // "`. -/
def encodeFaces (faces : List RawFace) : Str :=
  joinSep (strL " // ") (faces.map faceSummary)

/-- The normalization step of `store_cards`: single-faced fields are taken
verbatim (defaulted to `''`); a truthy `card_faces` list makes the code read
faces `[0]` and `[1]` unconditionally, which raises `IndexError` — modelled
as `none` — when only one face exists.  Note the separators actually used:
`" // "` for name and type line, `" \n//\n "` for oracle text, and
`"  // "` (two spaces) for mana cost. -/
def normalizeCard (c : RawCard) : Option NormCard :=
  if c.card_faces.isEmpty then
    some { name := c.name.getD [], oracle_text := c.oracle_text.getD [],
           mana_cost := c.mana_cost.getD [], type_line := c.type_line.getD [],
           card_faces := [] }
  else
    match c.card_faces[0]?, c.card_faces[1]? with
    | some f0, some f1 =>
        some { name := f0.name.getD [] ++ strL " // " ++ f1.name.getD [],
               oracle_text :=
                 f0.oracle_text.getD [] ++ strL " \n//\n " ++ f1.oracle_text.getD [],
               mana_cost := f0.mana_cost.getD [] ++ strL "  // " ++ f1.mana_cost.getD [],
               type_line := f0.type_line.getD [] ++ strL " // " ++ f1.type_line.getD [],
               card_faces := encodeFaces c.card_faces }
    | _, _ => none

/-! ## Face decoding (`view_card_detail` in `app.py`) -/

/-- One face as reconstructed by the card-detail view. -/
structure DecFace where
  name : Str
  type_line : Str
  imageNormal : Option Str
deriving DecidableEq, Repr

/-- Decode one `" // "`-separated segment: split off an `" |IMG:"` suffix
(first occurrence, remainder kept whole), then read the trailing
parenthesized type line; a segment without `" ("..")"` keeps the whole
text as the name and an empty type line. -/
def decodeFaceSeg (seg : Str) : DecFace :=
  let ntImg : Str × Option Str :=
    if containsB (strL " |IMG:") seg then
      match splitFirst (strL " |IMG:") seg with
      | some (a, b) => (a, if b = [] then none else some b)
      | none => (seg, none)
    else (seg, none)
  let nt := ntImg.1
  if containsB (strL " (") nt ∧ endsWithB (strL ")") nt = true then
    { name := (splitOnL (strL " (") nt).headD [],
      type_line := ((splitOnL (strL " (") nt).getD 1 []).dropLast,
      imageNormal := ntImg.2 }
  else { name := nt, type_line := [], imageNormal := ntImg.2 }

/-- The face reconstruction of `view_card_detail`: it only runs when the
stored `card_faces` column is truthy and contains `" // "`. -/
def decodeFaces (cf : Str) : Option (List DecFace) :=
  if cf ≠ [] ∧ containsB (strL " // ") cf = true then
    some ((splitOnL (strL " // ") cf).map decodeFaceSeg)
  else none

/-- What exact recovery of a face means: name and type line as stored
(defaulted like the encoder defaults them), and the normal-image URL
exactly when the encoder saw a truthy one. -/
def expectedFace (f : RawFace) : DecFace :=
  { name := f.name.getD [],
    type_line := f.type_line.getD [],
    imageNormal :=
      match f.imageNormal with
      | some u => if u = [] then none else some u
      | none => none }

/-- Sufficient safety condition on a face for the stringly encoding to be
invertible: its name and type line contain none of the separators
`" // "`, `" |IMG:"`, `" ("`, the name does not end in `" //"` (which
would merge with the following `" ("` or `" // "` into a separator), and
a present image URL is non-empty, contains no `" // "` and does not end
in `" //"`. -/
def faceSafe (f : RawFace) : Bool :=
  let n := f.name.getD []
  let t := f.type_line.getD []
  !containsB (strL " // ") n && !endsWithB (strL " //") n &&
  !containsB (strL " |IMG:") n && !containsB (strL " (") n &&
  !containsB (strL " // ") t && !containsB (strL " |IMG:") t &&
  !containsB (strL " (") t &&
  (match f.imageNormal with
   | none => true
   | some u => !u.isEmpty && !containsB (strL " // ") u && !endsWithB (strL " //") u)

/-! ## Deck list parsing and validation (`app.py`) -/

/-- `parse_decklist_text`: each stripped non-blank line is split at the
first space; a leading all-digit token is the quantity (the rest, stripped,
must be non-empty to produce an entry), otherwise the whole line is a name
with quantity 1. -/
def parseDecklistText (text : Str) : List (Str × Nat) :=
  if (pyStrip text).isEmpty then []
  else
    ((splitOnL (strL "\n") (pyStrip text)).map pyStrip).filterMap fun line =>
      if line = [] then none
      else
        match splitFirst [' '] line with
        | some (p0, p1) =>
            if pyIsDigit p0 then
              let nm := pyStrip p1
              if nm = [] then none else some (nm, natDigitsVal p0)
            else some (line, 1)
        | none => some (line, 1)

/-- `validate_cards_in_database`: the names among `names` with no exact
match in the `cards` table (modelled by its list of stored names). -/
def validateCardsInDatabase (db : List Str) (names : List Str) : List Str :=
  names.filter (fun n => !db.contains n)

/-- Set of names (first-occurrence order) — the model of the Python `set`
built by `update_deck` over main deck plus sideboard. -/
def dedupL : List Str → List Str
  | [] => []
  | x :: xs => let r := dedupL xs; if x ∈ r then r else x :: r

/-- One `deck_cards` row. -/
structure DeckLine where
  deckId : Nat
  cardName : Str
  qty : Nat
  sideboard : Bool
deriving DecidableEq, Repr

/-- The deck tables: `decks` rows (id, name, description, format), their
`deck_cards` rows, and the next `AUTOINCREMENT` deck id. -/
structure DeckState where
  decks : List (Nat × Str × Str × Str)
  deckCards : List DeckLine
  nextId : Nat
deriving DecidableEq, Repr

/-- Outcome of the `update_deck` route. -/
inductive DeckResult where
  | ok (deckId : Nat)
  | nameRequired
  | missingCards (missing : List Str)
deriving DecidableEq, Repr

/-- The `deck_cards` rows written for a deck from its parsed lists. -/
def deckLinesFor (did : Nat) (mainDeck sideboard : List (Str × Nat)) : List DeckLine :=
  mainDeck.map (fun p => ⟨did, p.1, p.2, false⟩) ++
  sideboard.map (fun p => ⟨did, p.1, p.2, true⟩)

/-- `update_deck` (`app.py`): require a name, parse both lists, validate
every distinct name against the card store and abort listing all missing
names before any write; otherwise update-in-place or create the deck and
delete-then-reinsert its lines. -/
def updateDeck (db : List Str) (st : DeckState) (deckId : Option Nat)
    (name desc fmt mainText sideText : Str) : DeckResult × DeckState :=
  let nm := pyStrip name
  if nm = [] then (.nameRequired, st)
  else
    let mainDeck := parseDecklistText mainText
    let sideboard := parseDecklistText sideText
    let allNames := dedupL ((mainDeck ++ sideboard).map Prod.fst)
    let missing := validateCardsInDatabase db allNames
    if missing ≠ [] then (.missingCards missing, st)
    else
      match deckId with
      | some did =>
          (.ok did,
           { decks := st.decks.map (fun d => if d.1 = did then (did, nm, pyStrip desc, pyStrip fmt) else d),
             deckCards := st.deckCards.filter (fun l => l.deckId ≠ did) ++
                          deckLinesFor did mainDeck sideboard,
             nextId := st.nextId })
      | none =>
          (.ok st.nextId,
           { decks := st.decks ++ [(st.nextId, nm, pyStrip desc, pyStrip fmt)],
             deckCards := st.deckCards ++ deckLinesFor st.nextId mainDeck sideboard,
             nextId := st.nextId + 1 })

/-! ## Collector-number ordering (`view_cards_by_set`) -/

/-- SQLite `CAST(text AS INTEGER)`: leading whitespace is skipped, an
optional sign is read, and the longest run of leading digits gives the
value — `0` when there is none.  The cast never fails. -/
def sqliteCastInt (s : Str) : Int :=
  match s.dropWhile pyIsSpace with
  | [] => 0
  | c :: rest =>
      if c = '-' then -(natDigitsVal (rest.takeWhile Char.isDigit) : Int)
      else if c = '+' then (natDigitsVal (rest.takeWhile Char.isDigit) : Int)
      else (natDigitsVal ((c :: rest).takeWhile Char.isDigit) : Int)

/-- `ORDER BY CAST(collector_number AS INTEGER)` over a set's collector
numbers (stable sort on the cast value). -/
def viewCardsBySetOrder (collectorNumbers : List Str) : List Str :=
  collectorNumbers.insertionSort (fun a b => sqliteCastInt a ≤ sqliteCastInt b)

/-! ## Helper lemmas: collection cell arithmetic -/

theorem getQty_addToCollection (s : Option Int) (q : Int) :
    getQty (addToCollection s q) = getQty s + q := by
  cases s <;> simp [getQty, addToCollection]

theorem getQty_updateCollectionQuantity (s : Option Int) (v : Int) (h : 0 ≤ v) :
    getQty (updateCollectionQuantity s v) = v := by
  unfold updateCollectionQuantity
  split
  · simp [getQty]; omega
  · simp [getQty]

theorem runTrades_append (s : LedgerState) (l₁ l₂ : List (Direction × Int)) :
    runTrades s (l₁ ++ l₂) = runTrades (runTrades s l₁) l₂ := by
  induction l₁ generalizing s with
  | nil => rfl
  | cons p rest ih => obtain ⟨d, q⟩ := p; simp [runTrades, ih]

theorem runTrades_conservation (ops : List (Direction × Int)) (s : LedgerState) :
    getQty (runTrades s ops).cell =
      getQty s.cell + ((acceptedSums s ops).1 - (acceptedSums s ops).2) := by
  induction ops generalizing s with
  | nil => simp [runTrades, acceptedSums]
  | cons p rest ih =>
      obtain ⟨d, q⟩ := p
      cases d with
      | buy =>
          have heq : addTrade s .buy q =
              (.ok, { cell := addToCollection s.cell q,
                      trades := s.trades ++ [(s.nextId, .buy, q)],
                      nextId := s.nextId + 1 }) := rfl
          simp only [runTrades, acceptedSums, heq]
          rw [ih]
          cases hsums : acceptedSums
              { cell := addToCollection s.cell q,
                trades := s.trades ++ [(s.nextId, .buy, q)],
                nextId := s.nextId + 1 } rest with
          | mk b l =>
              simp only [hsums]
              rw [getQty_addToCollection]
              ring
      | sell =>
          by_cases hq : getQty s.cell < q
          · have heq : addTrade s .sell q = (.insufficientHoldings, s) := by
              simp [addTrade, hq]
            simp only [runTrades, acceptedSums, heq]
            rw [ih]
          · have heq : addTrade s .sell q =
                (.ok, { cell := updateCollectionQuantity s.cell (getQty s.cell - q),
                        trades := s.trades ++ [(s.nextId, .sell, q)],
                        nextId := s.nextId + 1 }) := by
              simp [addTrade, hq]
            simp only [runTrades, acceptedSums, heq]
            rw [ih]
            cases hsums : acceptedSums
                { cell := updateCollectionQuantity s.cell (getQty s.cell - q),
                  trades := s.trades ++ [(s.nextId, .sell, q)],
                  nextId := s.nextId + 1 } rest with
            | mk b l =>
                simp only [hsums]
                rw [getQty_updateCollectionQuantity _ _ (by omega)]
                ring

/-! ## C1: ledger conservation -/

/-- C1.  For every sequence of Buy/Sell trade operations on a single
(card, foil) pair, starting from the empty database, the stored collection
quantity equals the sum of quantities of accepted Buys minus the sum of
quantities of accepted Sells (requests rejected with insufficient holdings
contribute nothing) — and since any sequence here includes every prefix,
this holds after each operation; moreover no Sell is ever accepted that
would make this value negative: appending a Sell that passes the
sufficiency check leaves the stored quantity non-negative. -/
theorem add_trade_ledger_conservation (ops : List (Direction × Int)) :
    getQty (runTrades initLedger ops).cell =
      (acceptedSums initLedger ops).1 - (acceptedSums initLedger ops).2 ∧
    ∀ q : Int, ¬ getQty (runTrades initLedger ops).cell < q →
      0 ≤ getQty (runTrades initLedger (ops ++ [(.sell, q)])).cell := by
  constructor
  · have := runTrades_conservation ops initLedger
    simpa [initLedger, getQty] using this
  · intro q hq
    rw [runTrades_append]
    set t := runTrades initLedger ops with ht
    have heq : addTrade t .sell q =
        (.ok, { cell := updateCollectionQuantity t.cell (getQty t.cell - q),
                trades := t.trades ++ [(t.nextId, .sell, q)],
                nextId := t.nextId + 1 }) := by
      simp [addTrade, hq]
    simp only [runTrades, heq]
    rw [getQty_updateCollectionQuantity _ _ (by omega)]
    omega

/-- Witness for C1 at a concrete run: Buy 3 gives quantity `3 − 0`, and a
Sell of 2 passing the check leaves the quantity non-negative. -/
theorem add_trade_ledger_conservation_witness :
    getQty (runTrades initLedger [(.buy, 3)]).cell =
      (acceptedSums initLedger [(.buy, 3)]).1 -
        (acceptedSums initLedger [(.buy, 3)]).2 ∧
    0 ≤ getQty (runTrades initLedger [(.buy, 3), (.sell, 2)]).cell := by
  obtain ⟨h1, h2⟩ := add_trade_ledger_conservation [(.buy, 3)]
  exact ⟨h1, h2 2 (by decide)⟩

/-! ## C2: a Sell larger than the holdings is rejected without effect -/

/-- C2.  Whenever the held quantity for the (card, foil) pair is strictly
below the requested Sell quantity, `add_trade` fails with the
insufficient-holdings error, appends no trade record, and leaves the
collection entry (indeed the whole state) unchanged. -/
theorem add_trade_sell_insufficient_rejected (s : LedgerState) (q : Int)
    (h : getQty s.cell < q) :
    addTrade s .sell q = (.insufficientHoldings, s) := by
  simp [addTrade, h]

/-- Witness for C2: selling 5 with 4 held is rejected and changes nothing. -/
theorem add_trade_sell_insufficient_rejected_witness :
    addTrade ⟨some 4, [(0, .buy, 4)], 1⟩ .sell 5 =
      (.insufficientHoldings, ⟨some 4, [(0, .buy, 4)], 1⟩) :=
  add_trade_sell_insufficient_rejected ⟨some 4, [(0, .buy, 4)], 1⟩ 5 (by decide)

/-! ## C3: deleting an absent trade id -/

/-- C3 (code bug).  Deleting a trade id that is absent from `trade_data`
does report not-found, but the source runs — and separately commits — the
compensating collection update before it checks the delete's row count:
on the empty database, a delete request for absent id 1 with direction
Sell and quantity 2 reports not-found while leaving the collection at
quantity 2, not its prior 0.  The claim's requirement that the
CollectionEntry state be unchanged on this error path fails. -/
theorem delete_trade_missing_id_mutates_collection :
    deleteTrade initLedger 1 .sell 2 =
      (.notFound, { cell := some 2, trades := [], nextId := 0 }) ∧
    getQty (deleteTrade initLedger 1 .sell 2).2.cell ≠ getQty initLedger.cell := by
  constructor
  · rfl
  · decide

/-! ## C4: delete compensates the original trade exactly -/

/-- C4.  With a non-negative held quantity `q`: a Buy of `n` followed by a
delete of that trade succeeds and restores quantity `q`; an accepted Sell
of `n` followed by a delete of that trade succeeds and restores `q`; and a
delete of a Buy trade is rejected with insufficient holdings — without any
state change — whenever the held quantity is below the Buy's quantity. -/
theorem delete_trade_compensation_exact (s : LedgerState) (n : Int)
    (h : 0 ≤ getQty s.cell) :
    ((deleteTrade (addTrade s .buy n).2 s.nextId .buy n).1 = .ok ∧
      getQty (deleteTrade (addTrade s .buy n).2 s.nextId .buy n).2.cell =
        getQty s.cell) ∧
    (¬ getQty s.cell < n →
      (deleteTrade (addTrade s .sell n).2 s.nextId .sell n).1 = .ok ∧
      getQty (deleteTrade (addTrade s .sell n).2 s.nextId .sell n).2.cell =
        getQty s.cell) ∧
    (∀ tid, getQty s.cell < n →
      deleteTrade s tid .buy n = (.insufficientHoldings, s)) := by
  refine ⟨?_, ?_, ?_⟩
  · have heqA : addTrade s .buy n =
        (.ok, { cell := addToCollection s.cell n,
                trades := s.trades ++ [(s.nextId, .buy, n)],
                nextId := s.nextId + 1 }) := rfl
    rw [heqA]
    have hnot : ¬ getQty (addToCollection s.cell n) < n := by
      rw [getQty_addToCollection]; omega
    have hany : ((s.trades ++ [(s.nextId, Direction.buy, n)]).any
        (fun t => t.1 == s.nextId)) = true := by simp
    simp only [deleteTrade, hany, if_neg hnot, if_true]
    refine ⟨by trivial, ?_⟩
    simp only [getQty_addToCollection]
    rw [show getQty s.cell + n - n = getQty s.cell by ring]
    exact getQty_updateCollectionQuantity _ _ h
  · intro hsell
    have heq : addTrade s .sell n =
        (.ok, { cell := updateCollectionQuantity s.cell (getQty s.cell - n),
                trades := s.trades ++ [(s.nextId, .sell, n)],
                nextId := s.nextId + 1 }) := by
      simp [addTrade, hsell]
    rw [heq]
    have hany : ((s.trades ++ [(s.nextId, Direction.sell, n)]).any
        (fun t => t.1 == s.nextId)) = true := by simp
    simp only [deleteTrade, hany, if_true]
    refine ⟨by trivial, ?_⟩
    simp only [getQty_addToCollection]
    rw [getQty_updateCollectionQuantity _ _ (by omega)]
    ring
  · intro tid hlt
    simp [deleteTrade, hlt]

/-- Witness for C4 at quantity 4 held: Buy 3 then delete restores 4,
Sell 2 then delete restores 4, and deleting a Buy of 9 is rejected. -/
theorem delete_trade_compensation_exact_witness :
    (0 : Int) ≤ getQty (⟨some 4, [], 5⟩ : LedgerState).cell ∧
    getQty (deleteTrade (addTrade ⟨some 4, [], 5⟩ .buy 3).2 5 .buy 3).2.cell = 4 ∧
    getQty (deleteTrade (addTrade ⟨some 4, [], 5⟩ .sell 2).2 5 .sell 2).2.cell = 4 ∧
    deleteTrade ⟨some 4, [], 5⟩ 0 .buy 9 =
      (.insufficientHoldings, ⟨some 4, [], 5⟩) := by
  obtain ⟨h1, h2, h3⟩ :=
    delete_trade_compensation_exact (⟨some 4, [], 5⟩ : LedgerState) 3 (by decide)
  obtain ⟨h1', h2', h3'⟩ :=
    delete_trade_compensation_exact (⟨some 4, [], 5⟩ : LedgerState) 2 (by decide)
  obtain ⟨h1'', h2'', h3''⟩ :=
    delete_trade_compensation_exact (⟨some 4, [], 5⟩ : LedgerState) 9 (by decide)
  exact ⟨by decide, h1.2, (h2' (by decide)).2, h3'' 0 (by decide)⟩

/-! ## C5: composite fields of a multi-faced card -/

/-- C5 counterexample.  The claim says all four composite fields use the
literal separator `" // "`, but `store_cards` joins the two mana costs
with `"  // "` (two spaces before the slashes): for faces with mana costs
`"1"` and `"2"` the stored column is `"1  // 2"`, not `"1 // 2"`. -/
theorem store_cards_mana_cost_sep_counterexample :
    (normalizeCard ⟨none, none, none, none,
        [⟨some (strL "F"), none, some (strL "1"), none, none⟩,
         ⟨some (strL "I"), none, some (strL "2"), none, none⟩]⟩).map
      NormCard.mana_cost = some (strL "1  // 2") ∧
    strL "1  // 2" ≠ strL "1" ++ strL " // " ++ strL "2" := by
  constructor
  · rfl
  · decide

/-- C5 as amended.  For every raw record whose `card_faces` has at least
two entries, `store_cards` forms the composite name and type line by
joining face 0's and face 1's fields with `" // "`, the oracle text with
the line-break-delimited `" \n//\n "`, and the mana cost with `"  // "`
(two spaces); only the first two faces are consulted.  In particular
`card_faces = [{name: Fire}, {name: Ice}]` gives the name `"Fire // Ice"`. -/
theorem store_cards_two_face_composite_fields (c : RawCard)
    (h : 2 ≤ c.card_faces.length) :
    ∃ f0 f1, c.card_faces[0]? = some f0 ∧ c.card_faces[1]? = some f1 ∧
      normalizeCard c = some
        { name := f0.name.getD [] ++ strL " // " ++ f1.name.getD [],
          oracle_text :=
            f0.oracle_text.getD [] ++ strL " \n//\n " ++ f1.oracle_text.getD [],
          mana_cost := f0.mana_cost.getD [] ++ strL "  // " ++ f1.mana_cost.getD [],
          type_line := f0.type_line.getD [] ++ strL " // " ++ f1.type_line.getD [],
          card_faces := encodeFaces c.card_faces } := by
  match hf : c.card_faces with
  | [] => rw [hf] at h; simp at h
  | [f] => rw [hf] at h; simp at h
  | f0 :: f1 :: rest =>
      refine ⟨f0, f1, by simp, by simp, ?_⟩
      simp [normalizeCard, hf]

/-- Witness for C5's amended statement: the Fire // Ice scenario. -/
theorem store_cards_two_face_composite_fields_witness :
    2 ≤ ([⟨some (strL "Fire"), none, none, none, none⟩,
          ⟨some (strL "Ice"), none, none, none, none⟩] : List RawFace).length ∧
    (normalizeCard ⟨none, none, none, none,
        [⟨some (strL "Fire"), none, none, none, none⟩,
         ⟨some (strL "Ice"), none, none, none, none⟩]⟩).map NormCard.name =
      some (strL "Fire // Ice") := by
  refine ⟨by decide, ?_⟩
  obtain ⟨f0, f1, h0, h1, hrow⟩ :=
    store_cards_two_face_composite_fields
      ⟨none, none, none, none,
        [⟨some (strL "Fire"), none, none, none, none⟩,
         ⟨some (strL "Ice"), none, none, none, none⟩]⟩ (by decide)
  rw [hrow]
  simp only [List.getElem?_cons_zero, List.getElem?_cons_succ, Option.some.injEq] at h0 h1
  subst h0
  subst h1
  rfl

/-! ## C10: a single-faced `card_faces` list makes normalization fail -/

/-- C10.  `store_cards` reads face index 1 unconditionally whenever
`card_faces` is truthy, so normalization succeeds exactly when the face
list does not have exactly one entry: a non-empty list with one face
raises `IndexError` (modelled as `none`) instead of storing a row, while
zero or at least two faces normalize to a row. -/
theorem store_cards_single_face_fails (c : RawCard) :
    (normalizeCard c).isSome ↔ c.card_faces.length ≠ 1 := by
  match hf : c.card_faces with
  | [] => unfold normalizeCard; rw [hf]; simp
  | [f] => unfold normalizeCard; rw [hf]; simp
  | f0 :: f1 :: rest => unfold normalizeCard; rw [hf]; simp

/-! ## C7: uniqueness and no-zero-row invariant of `user_collection` -/

theorem rowKeyMatch_iff (c : Str) (f : Bool) (r : CollRow) :
    rowKeyMatch c f r = true ↔ r.cardId = c ∧ r.isFoil = f := by
  simp [rowKeyMatch]

theorem uniqueKeys_addToCollectionRows (rows : List CollRow) (c : Str) (f : Bool)
    (q : Int) (h : UniqueKeys rows) :
    UniqueKeys (addToCollectionRows rows c f q) := by
  unfold addToCollectionRows
  cases hl : lookupQty rows c f with
  | some v =>
      rw [UniqueKeys, List.pairwise_map]
      refine h.imp ?_
      intro a b hab
      have ha : (if rowKeyMatch c f a then { a with qty := v + q } else a).cardId
            = a.cardId ∧
          (if rowKeyMatch c f a then { a with qty := v + q } else a).isFoil
            = a.isFoil := by
        split <;> exact ⟨rfl, rfl⟩
      have hb : (if rowKeyMatch c f b then { b with qty := v + q } else b).cardId
            = b.cardId ∧
          (if rowKeyMatch c f b then { b with qty := v + q } else b).isFoil
            = b.isFoil := by
        split <;> exact ⟨rfl, rfl⟩
      rw [ha.1, ha.2, hb.1, hb.2]
      exact hab
  | none =>
      rw [UniqueKeys, List.pairwise_append]
      refine ⟨h, by simp, ?_⟩
      intro a ha b hb
      have hfind : rows.find? (rowKeyMatch c f) = none := by
        unfold lookupQty at hl
        exact Option.map_eq_none'.mp hl
      have hnm := List.find?_eq_none.mp hfind a ha
      rw [rowKeyMatch_iff] at hnm
      simp at hb
      subst hb
      by_cases hc : a.cardId = c
      · right
        intro hfeq
        exact hnm ⟨hc, hfeq⟩
      · left; exact hc

theorem uniqueKeys_updateCollectionQuantityRows (rows : List CollRow) (c : Str)
    (f : Bool) (q : Int) (h : UniqueKeys rows) :
    UniqueKeys (updateCollectionQuantityRows rows c f q) := by
  unfold updateCollectionQuantityRows
  have hfil : UniqueKeys (rows.filter (fun r => !rowKeyMatch c f r)) :=
    h.sublist (List.filter_sublist rows)
  split
  · exact hfil
  · rw [UniqueKeys, List.pairwise_append]
    refine ⟨hfil, by simp, ?_⟩
    intro a ha b hb
    simp at hb
    subst hb
    have hm := (List.mem_filter.mp ha).2
    simp only [Bool.not_eq_eq_eq_not, Bool.not_true] at hm
    have : ¬ (a.cardId = c ∧ a.isFoil = f) := by
      intro hcf
      rw [(rowKeyMatch_iff c f a).mpr hcf] at hm
      cases hm
    by_cases hc : a.cardId = c
    · right
      intro hfeq
      exact this ⟨hc, hfeq⟩
    · left; exact hc

theorem uniqueKeys_applyCollOp (rows : List CollRow) (op : CollOp)
    (h : UniqueKeys rows) : UniqueKeys (applyCollOp rows op) := by
  cases op with
  | adjust c f q => exact uniqueKeys_addToCollectionRows rows c f q h
  | buyTrade c f q => exact uniqueKeys_addToCollectionRows rows c f q h
  | setExact c f q => exact uniqueKeys_updateCollectionQuantityRows rows c f q h
  | sellTrade c f q =>
      show UniqueKeys (if (lookupQty rows c f).getD 0 < q then rows
        else updateCollectionQuantityRows rows c f ((lookupQty rows c f).getD 0 - q))
      split
      · exact h
      · exact uniqueKeys_updateCollectionQuantityRows rows c f _ h

theorem posRows_addToCollectionRows (rows : List CollRow) (c : Str) (f : Bool)
    (q : Int) (hrows : ∀ r ∈ rows, 1 ≤ r.qty) (hq : 1 ≤ q) :
    ∀ r ∈ addToCollectionRows rows c f q, 1 ≤ r.qty := by
  unfold addToCollectionRows
  cases hl : lookupQty rows c f with
  | some v =>
      have hv : 1 ≤ v := by
        unfold lookupQty at hl
        cases hfind : rows.find? (rowKeyMatch c f) with
        | none => rw [hfind] at hl; cases hl
        | some r0 =>
            rw [hfind] at hl
            have hmem := List.mem_of_find?_eq_some hfind
            have := hrows r0 hmem
            simp at hl
            omega
      intro r hr
      obtain ⟨r0, hr0, hrr⟩ := List.mem_map.mp hr
      subst hrr
      have := hrows r0 hr0
      split <;> simp <;> omega
  | none =>
      intro r hr
      rcases List.mem_append.mp hr with hA | hB
      · exact hrows r hA
      · simp at hB
        subst hB
        exact hq

theorem posRows_updateCollectionQuantityRows (rows : List CollRow) (c : Str)
    (f : Bool) (q : Int) (hrows : ∀ r ∈ rows, 1 ≤ r.qty) :
    ∀ r ∈ updateCollectionQuantityRows rows c f q, 1 ≤ r.qty := by
  unfold updateCollectionQuantityRows
  split
  · intro r hr
    exact hrows r (List.mem_filter.mp hr).1
  · intro r hr
    rcases List.mem_append.mp hr with hA | hB
    · exact hrows r (List.mem_filter.mp hA).1
    · simp at hB
      subst hB
      show (1 : Int) ≤ q
      omega

theorem posRows_applyCollOp (rows : List CollRow) (op : CollOp)
    (hrows : ∀ r ∈ rows, 1 ≤ r.qty) (hop : opQtyPositive op) :
    ∀ r ∈ applyCollOp rows op, 1 ≤ r.qty := by
  cases op with
  | adjust c f q => exact posRows_addToCollectionRows rows c f q hrows hop
  | buyTrade c f q => exact posRows_addToCollectionRows rows c f q hrows hop
  | setExact c f q => exact posRows_updateCollectionQuantityRows rows c f q hrows
  | sellTrade c f q =>
      show ∀ r ∈ (if (lookupQty rows c f).getD 0 < q then rows
        else updateCollectionQuantityRows rows c f ((lookupQty rows c f).getD 0 - q)),
        1 ≤ r.qty
      split
      · exact hrows
      · exact posRows_updateCollectionQuantityRows rows c f _ hrows

theorem runCollOps_invariants (ops : List CollOp) (rows : List CollRow)
    (h : UniqueKeys rows) :
    UniqueKeys (runCollOps rows ops) ∧
    ((∀ r ∈ rows, 1 ≤ r.qty) → (∀ op ∈ ops, opQtyPositive op) →
      ∀ r ∈ runCollOps rows ops, 1 ≤ r.qty) := by
  induction ops generalizing rows with
  | nil => exact ⟨h, fun hp _ => hp⟩
  | cons op rest ih =>
      obtain ⟨ihU, ihP⟩ := ih (applyCollOp rows op) (uniqueKeys_applyCollOp rows op h)
      refine ⟨ihU, ?_⟩
      intro hp hops
      exact ihP (posRows_applyCollOp rows op hp (hops op (by simp)))
        (fun o ho => hops o (by simp [ho]))

/-- C7 counterexample.  A Buy trade of quantity 0 — which `add_trade` does
not reject — inserts a `user_collection` row with quantity 0, refuting the
claim that no operation creates such a row. -/
theorem collection_zero_row_counterexample :
    ∃ r ∈ runCollOps [] [CollOp.buyTrade (strL "c1") false 0], r.qty = 0 := by
  refine ⟨⟨strL "c1", false, 0⟩, ?_, rfl⟩
  decide

/-- C7 as amended.  In every reachable state of `user_collection` there is
at most one row per (card id, foil flag) pair — unconditionally — and
`update_collection_quantity` deletes the row rather than storing a
quantity `≤ 0`; moreover, provided every add / Buy-trade quantity is at
least 1 (which the direct-add route enforces but `add_trade` does not:
a Buy of quantity 0 inserts a zero-quantity row), every stored row has
quantity at least 1, so no zero-quantity row exists. -/
theorem collection_unique_positive_invariant :
    (∀ ops : List CollOp, UniqueKeys (runCollOps [] ops)) ∧
    (∀ (rows : List CollRow) (c : Str) (f : Bool) (q : Int), q ≤ 0 →
      updateCollectionQuantityRows rows c f q =
        rows.filter (fun r => !rowKeyMatch c f r)) ∧
    (∀ ops : List CollOp, (∀ op ∈ ops, opQtyPositive op) →
      ∀ r ∈ runCollOps [] ops, 1 ≤ r.qty) := by
  refine ⟨?_, ?_, ?_⟩
  · intro ops
    exact (runCollOps_invariants ops [] (by simp [UniqueKeys])).1
  · intro rows c f q hq
    simp [updateCollectionQuantityRows, hq]
  · intro ops hops
    exact (runCollOps_invariants ops [] (by simp [UniqueKeys])).2
      (by intro r hr; cases hr) hops

/-- Witness for C7's amended statement on a concrete run: a Buy of 2 and a
set-exact to 0 leave a table satisfying both invariant parts. -/
theorem collection_unique_positive_invariant_witness :
    UniqueKeys (runCollOps []
      [CollOp.buyTrade (strL "c1") false 2, CollOp.setExact (strL "c1") false 0]) ∧
    ∀ r ∈ runCollOps []
      [CollOp.buyTrade (strL "c1") false 2, CollOp.setExact (strL "c1") false 0],
      1 ≤ r.qty := by
  obtain ⟨hU, _, hP⟩ := collection_unique_positive_invariant
  refine ⟨hU _, hP _ ?_⟩
  intro op hop
  simp only [List.mem_cons, List.not_mem_nil, or_false] at hop
  rcases hop with rfl | rfl
  · show (1 : Int) ≤ 2
    decide
  · trivial

/-! ## C8: all-or-nothing deck save -/

theorem mem_dedupL (l : List Str) (a : Str) : a ∈ dedupL l ↔ a ∈ l := by
  induction l with
  | nil => simp [dedupL]
  | cons x xs ih =>
      simp only [dedupL]
      split
      · rename_i hx
        constructor
        · intro hmem
          exact List.mem_cons_of_mem _ (ih.mp hmem)
        · intro hmem
          rcases List.mem_cons.mp hmem with rfl | hmem
          · exact hx
          · exact ih.mpr hmem
      · simp only [List.mem_cons, ih]

theorem mem_validateCardsInDatabase (db names : List Str) (n : Str) :
    n ∈ validateCardsInDatabase db names ↔ n ∈ names ∧ n ∉ db := by
  simp [validateCardsInDatabase]

/-- C8.  Whenever a deck save's decklist text (main plus sideboard)
parses to at least one card name with no exact match in the card store,
`update_deck` aborts with a message listing exactly the missing names, no
deck-line row is written, and no deck row is created: the whole
`DeckState` is returned unchanged. -/
theorem update_deck_missing_cards_aborts (db : List Str) (st : DeckState)
    (deckId : Option Nat) (name desc fmt mainText sideText : Str)
    (hname : pyStrip name ≠ [])
    (hmiss : ∃ p ∈ parseDecklistText mainText ++ parseDecklistText sideText,
      p.1 ∉ db) :
    ∃ m, updateDeck db st deckId name desc fmt mainText sideText =
        (.missingCards m, st) ∧
      ∀ n, n ∈ m ↔
        (∃ q, (n, q) ∈ parseDecklistText mainText ++ parseDecklistText sideText) ∧
        n ∉ db := by
  obtain ⟨p, hp, hpdb⟩ := hmiss
  have hMne : validateCardsInDatabase db
      (dedupL ((parseDecklistText mainText ++ parseDecklistText sideText).map
        Prod.fst)) ≠ [] := by
    have hmem : p.1 ∈ validateCardsInDatabase db
        (dedupL ((parseDecklistText mainText ++ parseDecklistText sideText).map
          Prod.fst)) := by
      rw [mem_validateCardsInDatabase, mem_dedupL]
      exact ⟨List.mem_map.mpr ⟨p, hp, rfl⟩, hpdb⟩
    exact List.ne_nil_of_mem hmem
  refine ⟨validateCardsInDatabase db
      (dedupL ((parseDecklistText mainText ++ parseDecklistText sideText).map
        Prod.fst)), ?_, ?_⟩
  · simp only [updateDeck]
    rw [if_neg hname, if_pos hMne]
  · intro n
    rw [mem_validateCardsInDatabase, mem_dedupL]
    constructor
    · rintro ⟨hmm, hdb⟩
      obtain ⟨q, hq, hqn⟩ := List.mem_map.mp hmm
      refine ⟨⟨q.2, ?_⟩, hdb⟩
      rw [← hqn, Prod.mk.eta]
      exact hq
    · rintro ⟨⟨q, hq⟩, hdb⟩
      exact ⟨List.mem_map.mpr ⟨(n, q), hq, rfl⟩, hdb⟩

/-- Witness for C8: saving a new deck whose list names the unknown card
Bolt aborts with Bolt among the missing names and leaves the empty deck
store empty. -/
theorem update_deck_missing_cards_aborts_witness :
    pyStrip (strL "My Deck") ≠ [] ∧
    ∃ m, updateDeck [strL "Mountain"] ⟨[], [], 0⟩ none (strL "My Deck") [] []
        (strL "2 Bolt\n3 Mountain") [] = (.missingCards m, ⟨[], [], 0⟩) ∧
      strL "Bolt" ∈ m := by
  refine ⟨by decide, ?_⟩
  obtain ⟨m, heq, hiff⟩ :=
    update_deck_missing_cards_aborts [strL "Mountain"] ⟨[], [], 0⟩ none
      (strL "My Deck") [] [] (strL "2 Bolt\n3 Mountain") [] (by decide)
      ⟨(strL "Bolt", 2), by decide, by decide⟩
  exact ⟨m, heq, (hiff (strL "Bolt")).mpr ⟨⟨2, by decide⟩, by decide⟩⟩

/-! ## C9: ordering by collector number -/

theorem space_not_digit (c : Char) (h : pyIsSpace c = true) :
    c.isDigit = false := by
  simp only [pyIsSpace, Bool.or_eq_true, decide_eq_true_eq] at h
  rcases h with ((((h | h) | h) | h) | h) | h <;> subst h <;> decide

theorem takeWhile_all (p : Char → Bool) (l : Str) (h : ∀ c ∈ l, p c = true) :
    l.takeWhile p = l := by
  induction l with
  | nil => rfl
  | cons c cs ih =>
      have hc := h c (by simp)
      have hrest := ih (fun x hx => h x (by simp [hx]))
      simp [List.takeWhile_cons, hc, hrest]

/-- C9 counterexample.  The collector number `"12a"` is not purely
numeric, yet `ORDER BY CAST(collector_number AS INTEGER)` places it
before the purely numeric `"100"` (its cast value is 12), refuting the
claim that non-numeric collector numbers sort after all numeric ones. -/
theorem collector_number_sort_counterexample :
    pyIsDigit (strL "100") = true ∧ pyIsDigit (strL "12a") = false ∧
    viewCardsBySetOrder [strL "100", strL "12a"] =
      [strL "12a", strL "100"] := by
  refine ⟨by decide, by decide, by decide⟩

/-- C9 as amended.  Listing a set's cards orders by
`CAST(collector_number AS INTEGER)`, which never fails: on a purely
numeric collector number it is the numeric value, and on a non-numeric
one it is the value of the longest leading digit run (0 when there is
none), so `"12a"` sorts with value 12 among the numerics — between
`"11"` and `"13"`, not after all of them. -/
theorem collector_number_cast_semantics :
    (∀ s : Str, s ≠ [] → (∀ c ∈ s, c.isDigit = true) →
      sqliteCastInt s = (natDigitsVal s : Int)) ∧
    sqliteCastInt (strL "12a") = (12 : Int) ∧
    viewCardsBySetOrder [strL "13", strL "12a", strL "11"] =
      [strL "11", strL "12a", strL "13"] := by
  refine ⟨?_, by decide, by decide⟩
  intro s hne hdig
  match s, hne with
  | c :: cs, _ =>
    have hc := hdig c (by simp)
    have hns : pyIsSpace c = false := by
      cases hs : pyIsSpace c
      · rfl
      · rw [space_not_digit c hs] at hc; cases hc
    have hds : (c :: cs).dropWhile pyIsSpace = c :: cs := by
      rw [List.dropWhile_cons, hns]
      simp
    have hcm : ¬ c = '-' := by
      intro h; subst h; exact absurd hc (by decide)
    have hcp : ¬ c = '+' := by
      intro h; subst h; exact absurd hc (by decide)
    have hred : sqliteCastInt (c :: cs) =
        (if c = '-' then -(natDigitsVal (cs.takeWhile Char.isDigit) : Int)
         else if c = '+' then (natDigitsVal (cs.takeWhile Char.isDigit) : Int)
         else (natDigitsVal ((c :: cs).takeWhile Char.isDigit) : Int)) := by
      unfold sqliteCastInt
      rw [hds]
    rw [hred, if_neg hcm, if_neg hcp, takeWhile_all _ _ hdig]

/-- Witness for C9's amended statement: the purely numeric `"100"` casts
to its numeric value 100. -/
theorem collector_number_cast_semantics_witness :
    sqliteCastInt (strL "100") = (100 : Int) := by
  have h := collector_number_cast_semantics.1 (strL "100") (by decide) (by decide)
  rw [h]
  decide

/-! ## Helper lemmas: prefixes, substrings and splitting -/

theorem isPrefB_refl_append (p r : Str) : isPrefB p (p ++ r) = true := by
  induction p with
  | nil => rfl
  | cons c cs ih => simp [isPrefB, ih]

theorem isPrefB_decomp (p : Str) :
    ∀ l, isPrefB p l = true → l = p ++ l.drop p.length := by
  induction p with
  | nil => intro l _; rfl
  | cons c cs ih =>
      intro l h
      cases l with
      | nil => cases h
      | cons d ds =>
          simp only [isPrefB] at h
          by_cases hcd : c = d
          · subst hcd
            rw [if_pos rfl] at h
            have := ih ds h
            simp only [List.length_cons, List.drop_succ_cons, List.cons_append]
            rw [← this]
          · rw [if_neg hcd] at h
            cases h

theorem isPrefB_long (p : Str) :
    ∀ t v, isPrefB p (t ++ v) = true → p.length ≤ t.length →
      isPrefB p t = true := by
  induction p with
  | nil => intro t v _ _; rfl
  | cons c cs ih =>
      intro t v h hlen
      cases t with
      | nil => simp at hlen
      | cons d ds =>
          simp only [List.cons_append, isPrefB] at h ⊢
          by_cases hcd : c = d
          · rw [if_pos hcd] at h ⊢
            exact ih ds v h (by simpa using hlen)
          · rw [if_neg hcd] at h
            cases h

theorem isPrefB_short :
    ∀ (t p v : Str), isPrefB p (t ++ v) = true → t.length ≤ p.length →
      t = p.take t.length ∧ isPrefB (p.drop t.length) v = true := by
  intro t
  induction t with
  | nil => intro p v h _; exact ⟨rfl, h⟩
  | cons d ds ih =>
      intro p v h hlen
      cases p with
      | nil => simp at hlen
      | cons c cs =>
          simp only [List.cons_append, isPrefB] at h
          by_cases hcd : c = d
          · rw [if_pos hcd] at h
            obtain ⟨h1, h2⟩ := ih cs v h (by simpa using hlen)
            subst hcd
            refine ⟨?_, by simpa using h2⟩
            simp only [List.length_cons, List.take_succ_cons]
            rw [← h1]
          · rw [if_neg hcd] at h
            cases h

theorem containsB_of_isPrefB_drop (sep : Str) :
    ∀ (x : Str) (i : Nat), isPrefB sep (x.drop i) = true →
      containsB sep x = true := by
  intro x
  induction x with
  | nil => intro i h; simp only [List.drop_nil] at h; simpa [containsB] using h
  | cons c cs ih =>
      intro i h
      cases i with
      | zero =>
          simp only [List.drop_zero] at h
          simp [containsB, h]
      | succ j =>
          have := ih j (by simpa using h)
          simp [containsB, this]

theorem splitFirst_sound (sep : Str) :
    ∀ l a b, splitFirst sep l = some (a, b) → l = a ++ (sep ++ b) := by
  intro l
  induction l with
  | nil => intro a b h; cases h
  | cons c cs ih =>
      intro a b h
      rw [splitFirst] at h
      by_cases hp : isPrefB sep (c :: cs) = true
      · rw [if_pos hp] at h
        cases h
        have := isPrefB_decomp sep (c :: cs) hp
        simpa using this
      · rw [if_neg hp] at h
        cases hcs : splitFirst sep cs with
        | none => rw [hcs] at h; cases h
        | some p =>
            obtain ⟨a', b'⟩ := p
            rw [hcs] at h
            cases h
            have := ih _ _ hcs
            simp [this]

theorem splitFirst_length (sep : Str) (hsep : sep ≠ []) (l a b : Str)
    (h : splitFirst sep l = some (a, b)) : b.length < l.length := by
  have hl := splitFirst_sound sep l a b h
  have : l.length = a.length + (sep.length + b.length) := by
    rw [hl]; simp [List.length_append]
  have hs : 1 ≤ sep.length := by
    cases sep with
    | nil => exact absurd rfl hsep
    | cons _ _ => simp
  omega

theorem splitFirst_none_of_not_contains (sep : Str) :
    ∀ l, containsB sep l = false → splitFirst sep l = none := by
  intro l
  induction l with
  | nil => intro _; rfl
  | cons c cs ih =>
      intro h
      rw [containsB, Bool.or_eq_false_iff] at h
      rw [splitFirst, if_neg (by simp [h.1]), ih h.2]

theorem splitFirst_clean (sep : Str) (hsep : sep ≠ []) :
    ∀ a b, NoEarlyB sep a (sep ++ b) →
      splitFirst sep (a ++ (sep ++ b)) = some (a, b) := by
  intro a
  induction a with
  | nil =>
      intro b _
      obtain ⟨s0, sep', rfl⟩ : ∃ s0 sep', sep = s0 :: sep' := by
        cases sep with
        | nil => exact absurd rfl hsep
        | cons s0 sep' => exact ⟨s0, sep', rfl⟩
      have hcond : isPrefB (s0 :: sep') (s0 :: (sep' ++ b)) = true := by
        rw [show s0 :: (sep' ++ b) = (s0 :: sep') ++ b from rfl]
        exact isPrefB_refl_append _ _
      show splitFirst (s0 :: sep') (s0 :: (sep' ++ b)) = some ([], b)
      rw [splitFirst, if_pos hcond,
          show s0 :: (sep' ++ b) = (s0 :: sep') ++ b from rfl, List.drop_left]
  | cons c a' ih =>
      intro b hne
      have h0 : isPrefB sep (c :: (a' ++ (sep ++ b))) = false := by
        have h := hne 0 (by simp)
        simpa using h
      have hrest : NoEarlyB sep a' (sep ++ b) := by
        intro i hi
        have h := hne (i + 1) (by simp; omega)
        simpa using h
      have hih := ih b hrest
      show splitFirst sep (c :: (a' ++ (sep ++ b))) = some (c :: a', b)
      rw [splitFirst, if_neg (by simp [h0]), hih]

theorem splitOnAux_congr (sep : Str) (hsep : sep ≠ []) :
    ∀ f1 f2 l, l.length ≤ f1 → l.length ≤ f2 →
      splitOnAux sep f1 l = splitOnAux sep f2 l := by
  intro f1
  induction f1 with
  | zero =>
      intro f2 l h1 _
      have : l = [] := List.length_eq_zero.mp (Nat.le_zero.mp h1)
      subst this
      cases f2 with
      | zero => rfl
      | succ g => rfl
  | succ f ih =>
      intro f2 l h1 h2
      cases f2 with
      | zero =>
          have : l = [] := List.length_eq_zero.mp (Nat.le_zero.mp h2)
          subst this
          rfl
      | succ g =>
          show splitOnAux sep (f + 1) l = splitOnAux sep (g + 1) l
          rw [splitOnAux, splitOnAux]
          cases hsf : splitFirst sep l with
          | none => rfl
          | some p =>
              obtain ⟨a, b⟩ := p
              have hlt := splitFirst_length sep hsep l a b hsf
              show a :: splitOnAux sep f b = a :: splitOnAux sep g b
              rw [ih g b (by omega) (by omega)]

theorem splitOnL_cons (sep : Str) (hsep : sep ≠ []) (l a b : Str)
    (h : splitFirst sep l = some (a, b)) :
    splitOnL sep l = a :: splitOnL sep b := by
  obtain ⟨s0, sep', rfl⟩ : ∃ s0 sep', sep = s0 :: sep' := by
    cases sep with
    | nil => exact absurd rfl hsep
    | cons s0 sep' => exact ⟨s0, sep', rfl⟩
  cases hl : l with
  | nil => rw [hl] at h; cases h
  | cons x xs =>
      rw [← hl]
      show splitOnAux (s0 :: sep') l.length l = a :: splitOnAux (s0 :: sep') b.length b
      have hlen : l.length = xs.length + 1 := by rw [hl]; rfl
      rw [hlen, splitOnAux, h]
      have hlt := splitFirst_length (s0 :: sep') (by simp) l a b h
      show a :: splitOnAux (s0 :: sep') xs.length b =
        a :: splitOnAux (s0 :: sep') b.length b
      rw [splitOnAux_congr (s0 :: sep') (by simp) xs.length b.length b (by omega) (by omega)]

theorem splitOnL_single (sep l : Str) (h : containsB sep l = false) :
    splitOnL sep l = [l] := by
  cases sep with
  | nil => rfl
  | cons s0 sep' =>
      show splitOnAux (s0 :: sep') l.length l = [l]
      cases hn : l.length with
      | zero => rfl
      | succ m =>
          rw [splitOnAux, splitFirst_none_of_not_contains (s0 :: sep') l h]

theorem endsWithB_of_drop (x p : Str) (i : Nat) (h : x.drop i = p) :
    endsWithB p x = true := by
  have hx : x = x.take i ++ p := by rw [← h, List.take_append_drop]
  rw [endsWithB, hx, List.reverse_append]
  exact isPrefB_refl_append _ _

theorem noEarly_of (sep x c : Str) (hc : containsB sep x = false)
    (hk : ∀ k, 1 ≤ k → k < sep.length →
      isPrefB (sep.drop k) c = false ∨ endsWithB (sep.take k) x = false) :
    NoEarlyB sep x c := by
  intro i hi
  cases hp : isPrefB sep (x.drop i ++ c) with
  | false => rfl
  | true =>
      exfalso
      have hlen : 1 ≤ (x.drop i).length := by
        simp only [List.length_drop]
        omega
      by_cases hcase : sep.length ≤ (x.drop i).length
      · have := isPrefB_long sep (x.drop i) c hp hcase
        rw [containsB_of_isPrefB_drop sep x i this] at hc
        cases hc
      · push_neg at hcase
        obtain ⟨h1, h2⟩ := isPrefB_short (x.drop i) sep c hp (by omega)
        rcases hk (x.drop i).length hlen hcase with hl | hr
        · rw [show sep.drop (x.drop i).length = sep.drop (List.length (x.drop i))
            from rfl] at hl
          rw [hl] at h2
          cases h2
        · rw [endsWithB_of_drop x (sep.take (x.drop i).length) i h1] at hr
          cases hr

theorem selfJoinSafe_noEarly (sep x c : Str) (hsep : sep ≠ [])
    (hs : SelfJoinSafe sep x) : NoEarlyB sep x (sep ++ c) := by
  refine noEarly_of sep x (sep ++ c) hs.1 ?_
  intro k h1 hklt
  cases hp : isPrefB (sep.drop k) sep with
  | true => exact Or.inr (hs.2 k h1 hklt hp)
  | false =>
      left
      cases hq : isPrefB (sep.drop k) (sep ++ c) with
      | false => rfl
      | true =>
          have := isPrefB_long (sep.drop k) sep c hq (by simp [List.length_drop])
          rw [this] at hp
          cases hp

theorem noEarly_shift (sep : Str) (c : Char) (x b : Str)
    (h : NoEarlyB sep (c :: x) b) : NoEarlyB sep x b := by
  intro i hi
  have := h (i + 1) (by simp; omega)
  simpa using this

theorem containsB_append_of (sep : Str) :
    ∀ x y, NoEarlyB sep x y → containsB sep y = false →
      containsB sep (x ++ y) = false := by
  intro x
  induction x with
  | nil => intro y _ hy; simpa using hy
  | cons c x' ih =>
      intro y hne hy
      show containsB sep (c :: (x' ++ y)) = false
      rw [containsB, Bool.or_eq_false_iff]
      constructor
      · have := hne 0 (by simp)
        simpa using this
      · exact ih y (noEarly_shift sep c x' y hne) hy

theorem noEarly_append (sep x y b : Str) (hx : NoEarlyB sep x (y ++ b))
    (hy : NoEarlyB sep y b) : NoEarlyB sep (x ++ y) b := by
  intro i hi
  by_cases hix : i < x.length
  · have hdrop : (x ++ y).drop i = x.drop i ++ y := by
      rw [List.drop_append_of_le_length (by omega)]
    rw [hdrop, List.append_assoc]
    exact hx i hix
  · push_neg at hix
    obtain ⟨j, rfl⟩ : ∃ j, i = x.length + j := ⟨i - x.length, by omega⟩
    have hdrop : (x ++ y).drop (x.length + j) = y.drop j := by
      rw [List.drop_append]
    rw [hdrop]
    refine hy j ?_
    have := List.length_append x y
    omega

theorem containsB_append_mid (sep : Str) :
    ∀ a b, containsB sep (a ++ (sep ++ b)) = true := by
  intro a
  induction a with
  | nil =>
      intro b
      simp only [List.nil_append]
      cases sep with
      | nil => cases b <;> rfl
      | cons s0 sep' =>
          rw [show (s0 :: sep') ++ b = s0 :: (sep' ++ b) from rfl, containsB]
          rw [show s0 :: (sep' ++ b) = (s0 :: sep') ++ b from rfl,
              isPrefB_refl_append]
          rfl
  | cons c a' ih =>
      intro b
      show containsB sep (c :: (a' ++ (sep ++ b))) = true
      rw [containsB, ih b, Bool.or_true]

theorem splitOn_joinSep (sep : Str) (hsep : sep ≠ []) :
    ∀ segs : List Str, segs ≠ [] → (∀ x ∈ segs, SelfJoinSafe sep x) →
      splitOnL sep (joinSep sep segs) = segs := by
  intro segs
  induction segs with
  | nil => intro h _; exact absurd rfl h
  | cons x rest ih =>
      intro _ hsafe
      cases rest with
      | nil =>
          show splitOnL sep x = [x]
          exact splitOnL_single sep x (hsafe x (by simp)).1
      | cons y rest' =>
          have hx := hsafe x (by simp)
          have hJ : joinSep sep (x :: y :: rest') =
              x ++ (sep ++ joinSep sep (y :: rest')) := by
            rw [joinSep]
            rw [List.append_assoc]
          rw [hJ]
          have hsf := splitFirst_clean sep hsep x (joinSep sep (y :: rest'))
            (selfJoinSafe_noEarly sep x (joinSep sep (y :: rest')) hsep hx)
          rw [splitOnL_cons sep hsep _ _ _ hsf]
          rw [ih (by simp) (fun z hz => hsafe z (by simp [hz]))]

/-! ## Helper lemmas: the face-summary separators

`" // "`, `" |IMG:"` and `" ("` interact with the pieces of a face
summary only in the ways the following lemmas rule out. -/

theorem isPrefB_cons_ne (a : Char) (as : Str) (b : Char) (bs : Str) (h : ¬ a = b) :
    isPrefB (a :: as) (b :: bs) = false := by
  simp [isPrefB, h]

theorem noEarly_allRight (sep x c : Str) (hc : containsB sep x = false)
    (hk : ∀ k, 1 ≤ k → k < sep.length → endsWithB (sep.take k) x = false) :
    NoEarlyB sep x c :=
  noEarly_of sep x c hc (fun k h1 h2 => Or.inr (hk k h1 h2))

theorem noEarly_sep4_headParen (x w : Str)
    (hc : containsB (strL " // ") x = false) :
    NoEarlyB (strL " // ") x (')' :: w) := by
  refine noEarly_of _ x _ hc ?_
  intro k h1 h2
  left
  rw [show (strL " // ").length = 4 from rfl] at h2
  interval_cases k
  · exact isPrefB_cons_ne '/' (strL "/ ") ')' w (by decide)
  · exact isPrefB_cons_ne '/' (strL " ") ')' w (by decide)
  · exact isPrefB_cons_ne ' ' [] ')' w (by decide)

theorem noEarly_sep4_headSpaceParen (x w : Str)
    (hc : containsB (strL " // ") x = false)
    (he : endsWithB (strL " //") x = false) :
    NoEarlyB (strL " // ") x (' ' :: ('(' :: w)) := by
  refine noEarly_of _ x _ hc ?_
  intro k h1 h2
  rw [show (strL " // ").length = 4 from rfl] at h2
  interval_cases k
  · exact Or.inl (isPrefB_cons_ne '/' (strL "/ ") ' ' ('(' :: w) (by decide))
  · exact Or.inl (isPrefB_cons_ne '/' (strL " ") ' ' ('(' :: w) (by decide))
  · exact Or.inr he

theorem noEarly_sep6_headSpace (x w : Str)
    (hc : containsB (strL " |IMG:") x = false) :
    NoEarlyB (strL " |IMG:") x (' ' :: w) := by
  refine noEarly_of _ x _ hc ?_
  intro k h1 h2
  left
  rw [show (strL " |IMG:").length = 6 from rfl] at h2
  interval_cases k
  · exact isPrefB_cons_ne '|' (strL "IMG:") ' ' w (by decide)
  · exact isPrefB_cons_ne 'I' (strL "MG:") ' ' w (by decide)
  · exact isPrefB_cons_ne 'M' (strL "G:") ' ' w (by decide)
  · exact isPrefB_cons_ne 'G' (strL ":") ' ' w (by decide)
  · exact isPrefB_cons_ne ':' [] ' ' w (by decide)

theorem noEarly_sep6_headParen (x w : Str)
    (hc : containsB (strL " |IMG:") x = false) :
    NoEarlyB (strL " |IMG:") x (')' :: w) := by
  refine noEarly_of _ x _ hc ?_
  intro k h1 h2
  left
  rw [show (strL " |IMG:").length = 6 from rfl] at h2
  interval_cases k
  · exact isPrefB_cons_ne '|' (strL "IMG:") ')' w (by decide)
  · exact isPrefB_cons_ne 'I' (strL "MG:") ')' w (by decide)
  · exact isPrefB_cons_ne 'M' (strL "G:") ')' w (by decide)
  · exact isPrefB_cons_ne 'G' (strL ":") ')' w (by decide)
  · exact isPrefB_cons_ne ':' [] ')' w (by decide)

theorem noEarly_sep2_headSpace (x w : Str)
    (hc : containsB (strL " (") x = false) :
    NoEarlyB (strL " (") x (' ' :: w) := by
  refine noEarly_of _ x _ hc ?_
  intro k h1 h2
  left
  rw [show (strL " (").length = 2 from rfl] at h2
  interval_cases k
  exact isPrefB_cons_ne '(' [] ' ' w (by decide)

theorem noEarly_sep2_headParen (x w : Str)
    (hc : containsB (strL " (") x = false) :
    NoEarlyB (strL " (") x (')' :: w) := by
  refine noEarly_of _ x _ hc ?_
  intro k h1 h2
  left
  rw [show (strL " (").length = 2 from rfl] at h2
  interval_cases k
  exact isPrefB_cons_ne '(' [] ')' w (by decide)

theorem noEarly_sep4_litParen (c : Str) :
    NoEarlyB (strL " // ") (strL " (") c := by
  refine noEarly_allRight _ _ c (by decide) ?_
  intro k h1 h2
  rw [show (strL " // ").length = 4 from rfl] at h2
  interval_cases k <;> decide

theorem noEarly_sep4_litClose (c : Str) :
    NoEarlyB (strL " // ") (strL ")") c := by
  refine noEarly_allRight _ _ c (by decide) ?_
  intro k h1 h2
  rw [show (strL " // ").length = 4 from rfl] at h2
  interval_cases k <;> decide

theorem noEarly_sep4_litIMG (c : Str) :
    NoEarlyB (strL " // ") (strL " |IMG:") c := by
  refine noEarly_allRight _ _ c (by decide) ?_
  intro k h1 h2
  rw [show (strL " // ").length = 4 from rfl] at h2
  interval_cases k <;> decide

theorem noEarly_sep6_litParen (c : Str) :
    NoEarlyB (strL " |IMG:") (strL " (") c := by
  refine noEarly_allRight _ _ c (by decide) ?_
  intro k h1 h2
  rw [show (strL " |IMG:").length = 6 from rfl] at h2
  interval_cases k <;> decide

theorem noEarly_sep6_litClose (c : Str) :
    NoEarlyB (strL " |IMG:") (strL ")") c := by
  refine noEarly_allRight _ _ c (by decide) ?_
  intro k h1 h2
  rw [show (strL " |IMG:").length = 6 from rfl] at h2
  interval_cases k <;> decide

/-! ## Helper lemmas: cleanliness of whole face summaries -/

theorem ntClean_sep4 (n t : Str)
    (hn : containsB (strL " // ") n = false)
    (hne : endsWithB (strL " //") n = false)
    (ht : containsB (strL " // ") t = false) :
    containsB (strL " // ") (n ++ (strL " (" ++ (t ++ strL ")"))) = false := by
  refine containsB_append_of _ n _ ?_ ?_
  · rw [show strL " (" ++ (t ++ strL ")") = ' ' :: ('(' :: (t ++ strL ")")) from rfl]
    exact noEarly_sep4_headSpaceParen n _ hn hne
  · refine containsB_append_of _ (strL " (") _ (noEarly_sep4_litParen _) ?_
    refine containsB_append_of _ t _ ?_ (by decide)
    exact noEarly_sep4_headParen t [] ht

theorem segClean_sep4_img (n t u : Str)
    (hn : containsB (strL " // ") n = false)
    (hne : endsWithB (strL " //") n = false)
    (ht : containsB (strL " // ") t = false)
    (hu : containsB (strL " // ") u = false) :
    containsB (strL " // ")
      (n ++ (strL " (" ++ (t ++ (strL ")" ++ (strL " |IMG:" ++ u))))) = false := by
  refine containsB_append_of _ n _ ?_ ?_
  · rw [show strL " (" ++ (t ++ (strL ")" ++ (strL " |IMG:" ++ u)))
        = ' ' :: ('(' :: (t ++ (strL ")" ++ (strL " |IMG:" ++ u)))) from rfl]
    exact noEarly_sep4_headSpaceParen n _ hn hne
  · refine containsB_append_of _ (strL " (") _ (noEarly_sep4_litParen _) ?_
    refine containsB_append_of _ t _ ?_ ?_
    · rw [show strL ")" ++ (strL " |IMG:" ++ u)
          = ')' :: (strL " |IMG:" ++ u) from rfl]
      exact noEarly_sep4_headParen t _ ht
    · refine containsB_append_of _ (strL ")") _ (noEarly_sep4_litClose _) ?_
      exact containsB_append_of _ (strL " |IMG:") u (noEarly_sep4_litIMG _) hu

theorem endsWith_sep3_close (a : Str) :
    endsWithB (strL " //") (a ++ strL ")") = false := by
  rw [endsWithB, List.reverse_append]
  rw [show (strL ")").reverse ++ a.reverse = ')' :: a.reverse from rfl]
  rw [show (strL " //").reverse = '/' :: strL "/ " from rfl]
  exact isPrefB_cons_ne '/' (strL "/ ") ')' a.reverse (by decide)

theorem endsWith_sep3_img (nt u : Str)
    (hu : endsWithB (strL " //") u = false) :
    endsWithB (strL " //") (nt ++ (strL " |IMG:" ++ u)) = false := by
  rw [endsWithB]
  cases hp : isPrefB (strL " //").reverse (nt ++ (strL " |IMG:" ++ u)).reverse with
  | false => rfl
  | true =>
      exfalso
      have hrev : (nt ++ (strL " |IMG:" ++ u)).reverse
          = u.reverse ++ ((strL " |IMG:").reverse ++ nt.reverse) := by
        simp [List.reverse_append]
      rw [hrev] at hp
      by_cases hlen : (strL " //").reverse.length ≤ u.reverse.length
      · have hpre := isPrefB_long _ _ _ hp hlen
        rw [endsWithB, hpre] at hu
        cases hu
      · push_neg at hlen
        obtain ⟨h1, h2⟩ := isPrefB_short u.reverse (strL " //").reverse _ hp (by omega)
        have hm : u.reverse.length ≤ 2 := by
          have h3 : (strL " //").reverse.length = 3 := rfl
          omega
        rw [show (strL " |IMG:").reverse ++ nt.reverse
            = ':' :: (strL "GMI| " ++ nt.reverse) from rfl] at h2
        have hcases : u.reverse.length = 0 ∨ u.reverse.length = 1 ∨
            u.reverse.length = 2 := by omega
        rcases hcases with h | h | h <;> rw [h] at h2 <;> simp [isPrefB] at h2

theorem selfJoinSafe_sep4_of (x : Str)
    (hc : containsB (strL " // ") x = false)
    (he : endsWithB (strL " //") x = false) :
    SelfJoinSafe (strL " // ") x := by
  refine ⟨hc, ?_⟩
  intro k h1 h2 hp
  rw [show (strL " // ").length = 4 from rfl] at h2
  interval_cases k
  · exact absurd hp (by decide)
  · exact absurd hp (by decide)
  · rw [show (strL " // ").take 3 = strL " //" from rfl]
    exact he

/-! ## Helper lemmas: decoding one face summary -/

theorem ntClean_sep6 (n t : Str)
    (hn : containsB (strL " |IMG:") n = false)
    (ht : containsB (strL " |IMG:") t = false) :
    containsB (strL " |IMG:") (n ++ (strL " (" ++ (t ++ strL ")"))) = false := by
  refine containsB_append_of _ n _ ?_ ?_
  · rw [show strL " (" ++ (t ++ strL ")") = ' ' :: ('(' :: (t ++ strL ")")) from rfl]
    exact noEarly_sep6_headSpace n _ hn
  · refine containsB_append_of _ (strL " (") _ (noEarly_sep6_litParen _) ?_
    refine containsB_append_of _ t _ ?_ (by decide)
    exact noEarly_sep6_headParen t [] ht

theorem endsWith_close_true (a : Str) :
    endsWithB (strL ")") (a ++ strL ")") = true := by
  rw [endsWithB, List.reverse_append]
  rw [show (strL ")").reverse ++ a.reverse = ')' :: a.reverse from rfl]
  simp [isPrefB]

theorem splitOn_nt (n t : Str)
    (hnP : containsB (strL " (") n = false)
    (htP : containsB (strL " (") t = false) :
    splitOnL (strL " (") (n ++ (strL " (" ++ (t ++ strL ")"))) =
      [n, t ++ strL ")"] := by
  have hsf : splitFirst (strL " (") (n ++ (strL " (" ++ (t ++ strL ")"))) =
      some (n, t ++ strL ")") := by
    refine splitFirst_clean (strL " (") (by decide) n (t ++ strL ")") ?_
    rw [show strL " (" ++ (t ++ strL ")") = ' ' :: ('(' :: (t ++ strL ")")) from rfl]
    exact noEarly_sep2_headSpace n _ hnP
  rw [splitOnL_cons (strL " (") (by decide) _ _ _ hsf]
  rw [splitOnL_single (strL " (") (t ++ strL ")") ?_]
  refine containsB_append_of _ t _ ?_ (by decide)
  exact noEarly_sep2_headParen t [] htP

theorem decodeFaceSeg_noImg (n t : Str)
    (hnI : containsB (strL " |IMG:") n = false)
    (htI : containsB (strL " |IMG:") t = false)
    (hnP : containsB (strL " (") n = false)
    (htP : containsB (strL " (") t = false) :
    decodeFaceSeg (n ++ (strL " (" ++ (t ++ strL ")"))) =
      ⟨n, t, none⟩ := by
  have h6 : containsB (strL " |IMG:") (n ++ (strL " (" ++ (t ++ strL ")"))) = false :=
    ntClean_sep6 n t hnI htI
  have hP : containsB (strL " (") (n ++ (strL " (" ++ (t ++ strL ")"))) = true :=
    containsB_append_mid (strL " (") n (t ++ strL ")")
  have hE : endsWithB (strL ")") (n ++ (strL " (" ++ (t ++ strL ")"))) = true := by
    rw [show n ++ (strL " (" ++ (t ++ strL ")"))
        = (n ++ (strL " (" ++ t)) ++ strL ")" from by simp]
    exact endsWith_close_true _
  simp only [decodeFaceSeg, h6, Bool.false_eq_true, if_false, hP, hE, and_self,
    if_true]
  rw [splitOn_nt n t hnP htP]
  rw [show strL ")" = [')'] from rfl]
  simp

theorem decodeFaceSeg_img (n t u : Str)
    (hnI : containsB (strL " |IMG:") n = false)
    (htI : containsB (strL " |IMG:") t = false)
    (hnP : containsB (strL " (") n = false)
    (htP : containsB (strL " (") t = false)
    (hune : u ≠ []) :
    decodeFaceSeg ((n ++ (strL " (" ++ (t ++ strL ")"))) ++ (strL " |IMG:" ++ u)) =
      ⟨n, t, some u⟩ := by
  have h6 : containsB (strL " |IMG:")
      ((n ++ (strL " (" ++ (t ++ strL ")"))) ++ (strL " |IMG:" ++ u)) = true :=
    containsB_append_mid (strL " |IMG:") _ u
  have hne : NoEarlyB (strL " |IMG:") (n ++ (strL " (" ++ (t ++ strL ")")))
      (strL " |IMG:" ++ u) := by
    refine noEarly_append _ n _ _ ?_ ?_
    · rw [show (strL " (" ++ (t ++ strL ")")) ++ (strL " |IMG:" ++ u)
          = ' ' :: ('(' :: ((t ++ strL ")") ++ (strL " |IMG:" ++ u))) from rfl]
      exact noEarly_sep6_headSpace n _ hnI
    · refine noEarly_append _ (strL " (") _ _ (noEarly_sep6_litParen _) ?_
      refine noEarly_append _ t _ _ ?_ (noEarly_sep6_litClose _)
      rw [show strL ")" ++ (strL " |IMG:" ++ u)
          = ')' :: (strL " |IMG:" ++ u) from rfl]
      exact noEarly_sep6_headParen t _ htI
  have hsf : splitFirst (strL " |IMG:")
      ((n ++ (strL " (" ++ (t ++ strL ")"))) ++ (strL " |IMG:" ++ u)) =
      some (n ++ (strL " (" ++ (t ++ strL ")")), u) :=
    splitFirst_clean (strL " |IMG:") (by decide) _ u hne
  have hP : containsB (strL " (") (n ++ (strL " (" ++ (t ++ strL ")"))) = true :=
    containsB_append_mid (strL " (") n (t ++ strL ")")
  have hE : endsWithB (strL ")") (n ++ (strL " (" ++ (t ++ strL ")"))) = true := by
    rw [show n ++ (strL " (" ++ (t ++ strL ")"))
        = (n ++ (strL " (" ++ t)) ++ strL ")" from by simp]
    exact endsWith_close_true _
  simp only [decodeFaceSeg, h6, if_true, hsf]
  simp only [hune, if_neg]
  simp only [hP, hE, and_self, if_true]
  rw [splitOn_nt n t hnP htP]
  rw [show strL ")" = [')'] from rfl]
  simp

theorem faceSafe_fields (f : RawFace) (hs : faceSafe f = true) :
    containsB (strL " // ") (f.name.getD []) = false ∧
    endsWithB (strL " //") (f.name.getD []) = false ∧
    containsB (strL " |IMG:") (f.name.getD []) = false ∧
    containsB (strL " (") (f.name.getD []) = false ∧
    containsB (strL " // ") (f.type_line.getD []) = false ∧
    containsB (strL " |IMG:") (f.type_line.getD []) = false ∧
    containsB (strL " (") (f.type_line.getD []) = false ∧
    (∀ u, f.imageNormal = some u →
      u ≠ [] ∧ containsB (strL " // ") u = false ∧
      endsWithB (strL " //") u = false) := by
  simp only [faceSafe, Bool.and_eq_true, Bool.not_eq_true'] at hs
  obtain ⟨⟨⟨⟨⟨⟨⟨hn4, hne⟩, hn6⟩, hn2⟩, ht4⟩, ht6⟩, ht2⟩, himg⟩ := hs
  refine ⟨hn4, hne, hn6, hn2, ht4, ht6, ht2, ?_⟩
  intro u hu
  rw [hu] at himg
  simp only [Bool.and_eq_true, Bool.not_eq_true'] at himg
  obtain ⟨⟨hu1, hu2⟩, hu3⟩ := himg
  exact ⟨by simpa using hu1, hu2, hu3⟩

theorem faceSummary_eq_noImg (f : RawFace) (h : f.imageNormal = none) :
    faceSummary f =
      f.name.getD [] ++ (strL " (" ++ (f.type_line.getD [] ++ strL ")")) := by
  simp [faceSummary, h]

theorem faceSummary_eq_img (f : RawFace) (u : Str) (h : f.imageNormal = some u)
    (hne : u ≠ []) :
    faceSummary f =
      (f.name.getD [] ++ (strL " (" ++ (f.type_line.getD [] ++ strL ")"))) ++
        (strL " |IMG:" ++ u) := by
  simp [faceSummary, h, hne]

theorem faceSummary_selfJoinSafe (f : RawFace) (hs : faceSafe f = true) :
    SelfJoinSafe (strL " // ") (faceSummary f) := by
  obtain ⟨hn4, hne, _, _, ht4, _, _, himg⟩ := faceSafe_fields f hs
  cases himgv : f.imageNormal with
  | none =>
      rw [faceSummary_eq_noImg f himgv]
      refine selfJoinSafe_sep4_of _ (ntClean_sep4 _ _ hn4 hne ht4) ?_
      rw [show f.name.getD [] ++ (strL " (" ++ (f.type_line.getD [] ++ strL ")"))
          = (f.name.getD [] ++ (strL " (" ++ f.type_line.getD [])) ++ strL ")"
          from by simp]
      exact endsWith_sep3_close _
  | some u =>
      obtain ⟨hu1, hu2, hu3⟩ := himg u himgv
      rw [faceSummary_eq_img f u himgv hu1]
      refine selfJoinSafe_sep4_of _ ?_ ?_
      · rw [show (f.name.getD [] ++ (strL " (" ++ (f.type_line.getD [] ++ strL ")")))
            ++ (strL " |IMG:" ++ u)
            = f.name.getD [] ++ (strL " (" ++ (f.type_line.getD [] ++
                (strL ")" ++ (strL " |IMG:" ++ u)))) from by simp]
        exact segClean_sep4_img _ _ u hn4 hne ht4 hu2
      · exact endsWith_sep3_img _ u hu3

theorem decodeFaceSeg_faceSummary (f : RawFace) (hs : faceSafe f = true) :
    decodeFaceSeg (faceSummary f) = expectedFace f := by
  obtain ⟨_, _, hn6, hn2, _, ht6, ht2, himg⟩ := faceSafe_fields f hs
  cases himgv : f.imageNormal with
  | none =>
      rw [faceSummary_eq_noImg f himgv]
      rw [decodeFaceSeg_noImg _ _ hn6 ht6 hn2 ht2]
      simp [expectedFace, himgv]
  | some u =>
      obtain ⟨hu1, _, _⟩ := himg u himgv
      rw [faceSummary_eq_img f u himgv hu1]
      rw [decodeFaceSeg_img _ _ u hn6 ht6 hn2 ht2 hu1]
      simp [expectedFace, himgv, hu1]

/-! ## C6: round-trip of the face encoding -/

/-- C6 counterexample.  A face whose name itself contains `" ("` breaks
the decoder's parenthesis heuristic: faces named `"A (B"` and `"C"`
encode to `"A (B () // C ()"`, whose first decoded face has name `"A"`
(and type line `""`), not `"A (B"` — so encoding-then-decoding does not
recover every face's fields exactly for all cards. -/
theorem face_encoding_roundtrip_counterexample :
    decodeFaces (encodeFaces
        [⟨some (strL "A (B"), none, none, none, none⟩,
         ⟨some (strL "C"), none, none, none, none⟩]) ≠
      some ([⟨some (strL "A (B"), none, none, none, none⟩,
             ⟨some (strL "C"), none, none, none, none⟩].map expectedFace) := by
  decide

/-- C6 as amended.  For every card with at least two faces whose names and
type lines contain none of the separator strings `" // "`, `" |IMG:"`,
`" ("`, whose names do not end in `" //"`, and whose image URLs (when
present) are non-empty, contain no `" // "` and do not end in `" //"`,
the encoding of `store_cards` decoded by `view_card_detail` recovers each
face's name, type line, and normal-image URL exactly; a face with no (or
an empty) image URL decodes to a face with no image. -/
theorem face_encoding_roundtrip_safe (faces : List RawFace)
    (hlen : 2 ≤ faces.length)
    (hsafe : ∀ f ∈ faces, faceSafe f = true) :
    decodeFaces (encodeFaces faces) = some (faces.map expectedFace) := by
  have hsegs : splitOnL (strL " // ") (joinSep (strL " // ")
      (faces.map faceSummary)) = faces.map faceSummary := by
    refine splitOn_joinSep (strL " // ") (by decide) _ ?_ ?_
    · intro h
      rw [List.map_eq_nil] at h
      rw [h] at hlen
      simp at hlen
    · intro x hx
      obtain ⟨f, hf, rfl⟩ := List.mem_map.mp hx
      exact faceSummary_selfJoinSafe f (hsafe f hf)
  obtain ⟨f0, f1, rest, rfl⟩ : ∃ f0 f1 rest, faces = f0 :: f1 :: rest := by
    match faces, hlen with
    | f0 :: f1 :: rest, _ => exact ⟨f0, f1, rest, rfl⟩
  have hcontains : containsB (strL " // ") (encodeFaces (f0 :: f1 :: rest)) = true := by
    show containsB (strL " // ")
      (joinSep (strL " // ") (faceSummary f0 :: faceSummary f1 ::
        (rest.map faceSummary))) = true
    rw [joinSep, List.append_assoc]
    exact containsB_append_mid _ _ _
  have hne : encodeFaces (f0 :: f1 :: rest) ≠ [] := by
    intro h
    rw [h] at hcontains
    cases hcontains
  rw [decodeFaces, if_pos ⟨hne, hcontains⟩]
  show some ((splitOnL (strL " // ") (joinSep (strL " // ")
      ((f0 :: f1 :: rest).map faceSummary))).map decodeFaceSeg) = _
  rw [hsegs, List.map_map]
  congr 1
  refine List.map_congr_left ?_
  intro f hf
  exact decodeFaceSeg_faceSummary f (hsafe f hf)

/-- Witness for C6's amended statement: Fire // Ice with type lines and
one image URL round-trips exactly. -/
theorem face_encoding_roundtrip_safe_witness :
    2 ≤ ([⟨some (strL "Fire"), none, none, some (strL "Instant"), none⟩,
          ⟨some (strL "Ice"), none, none, some (strL "Instant"),
            some (strL "http://cards.example/ice.jpg")⟩] : List RawFace).length ∧
    decodeFaces (encodeFaces
        [⟨some (strL "Fire"), none, none, some (strL "Instant"), none⟩,
         ⟨some (strL "Ice"), none, none, some (strL "Instant"),
           some (strL "http://cards.example/ice.jpg")⟩]) =
      some ([⟨some (strL "Fire"), none, none, some (strL "Instant"), none⟩,
             ⟨some (strL "Ice"), none, none, some (strL "Instant"),
               some (strL "http://cards.example/ice.jpg")⟩].map expectedFace) := by
  refine ⟨by decide, ?_⟩
  exact face_encoding_roundtrip_safe _ (by decide) (by decide)

end MagicCollector
